import Mathlib

/-!
# Verification of the kite-server host/agent protocol core

Shallow embedding of `src/task/protocol.rs`: the wire codec for
`RequestPayload` / `ResponsePayload` (bincode: fixed-width little-endian
integers, `u32` enum discriminants, `u64` length prefixes), the request
builder `Request::new` with its process-wide sequence counter `LAST_SEQ`,
and the streaming response reader `Response::from_stream` built on tokio's
big-endian `read_u64`/`read_u32`/`read_u16` and `read_exact` primitives.

Bytes are modelled as `Nat` (well-formed buffers have all entries `< 256`);
machine-integer truncation (`as u32`, wrapping `fetch_add`) is modelled with
explicit `% 2^w`.  Fallible operations return `Except ProtocolError` or
`Option`.
-/

/-- Modelled from the spec: the error type behind `task::Result` is not in
the sources; §7 gives the taxonomy `Io` / `Encode` / `Decode`. -/
inductive ProtocolError
  | Io
  | Encode
  | Decode
deriving DecidableEq

/-! ## Little-endian and big-endian integer bytes -/

/-- Little-endian bytes of `n`, width `w` (bincode fixint encoding). -/
def leBytes : Nat → Nat → List Nat
  | 0, _ => []
  | w + 1, n => n % 256 :: leBytes w (n / 256)

/-- Value of a little-endian byte list (head is least significant). -/
def leVal : List Nat → Nat
  | [] => 0
  | b :: t => b + 256 * leVal t

/-- Big-endian bytes of `n`, width `w` (network order, as written by the
agent for the response header fields). -/
def beBytes (w n : Nat) : List Nat :=
  (leBytes w n).reverse

/-- Value of a big-endian byte list, as computed by tokio's
`read_u64`/`read_u32`/`read_u16`. -/
def beVal (l : List Nat) : Nat :=
  l.foldl (fun a b => 256 * a + b) 0

/-! ## Payload data model

The concrete body types (`AgentInfoRequest`, `ElectricityBillRequest`,
`ActivityListRequest`, `CourseScoreRequest` and their response
counterparts) live in the crate's `models` module, which is not among the
sources; only `protocol.rs` is.  They are therefore modelled from the
spec: each variant carries one strongly-typed body in a deterministic
fixed-layout binary form — strings as `u64` length + bytes, integers as
fixed-width little-endian words, sequences as `u64` count + elements,
exactly the bincode layout used by `protocol.rs`. -/

namespace models

/-- Modelled from the spec: the agent-info query carries no fields. -/
structure AgentInfoRequest where
deriving DecidableEq

/-- Modelled from the spec: an electricity-bill query for one room; the
room identifier is a string, modelled as its byte list. -/
structure ElectricityBillRequest where
  room : List Nat
deriving DecidableEq

/-- Modelled from the spec: an activity-list query (paging parameters,
two `u16` fields). -/
structure ActivityListRequest where
  count : Nat
  index : Nat
deriving DecidableEq

/-- Modelled from the spec: a course-score query for one account
(string) and school year (`u32`). -/
structure CourseScoreRequest where
  account : List Nat
  school_year : Nat
deriving DecidableEq

/-- Modelled from the spec: agent self-description (a string name). -/
structure AgentInfo where
  name : List Nat
deriving DecidableEq

/-- Modelled from the spec: an electricity-bill result (two `u32`
fields). -/
structure ElectricityBill where
  balance : Nat
  power : Nat
deriving DecidableEq

/-- Modelled from the spec: one activity (`u32` id and a string title). -/
structure Activity where
  id : Nat
  title : List Nat
deriving DecidableEq

/-- Modelled from the spec: one course score (string course name and a
`u32` score). -/
structure CourseScore where
  course : List Nat
  score : Nat
deriving DecidableEq

end models

/-- Host request payload (`RequestPayload` in `protocol.rs`): closed
tagged union of the four supported request variants. -/
inductive RequestPayload
  | AgentInfo (r : models.AgentInfoRequest)
  | ElectricityBill (r : models.ElectricityBillRequest)
  | ActivityList (r : models.ActivityListRequest)
  | ScoreList (r : models.CourseScoreRequest)
deriving DecidableEq

/-- Agent response payload (`ResponsePayload` in `protocol.rs`): closed
tagged union of the four supported response variants, paired by position
with the request variants. -/
inductive ResponsePayload
  | AgentInfo (r : models.AgentInfo)
  | ElectricityBill (r : models.ElectricityBill)
  | ActivityList (r : List models.Activity)
  | ScoreList (r : List models.CourseScore)
deriving DecidableEq

/-! ## Payload codec (bincode layout)

`protocol.rs` serializes with `bincode::serialize` and deserializes with
`bincode::deserialize`: fixed-width little-endian integers, enum
discriminant as a `u32` variant index, collection lengths as `u64`,
trailing bytes ignored by `deserialize`. -/

/-- bincode encoding of a string/byte sequence: `u64` length + bytes. -/
def encString (b : List Nat) : List Nat :=
  leBytes 8 b.length ++ b

/-- bincode encoding of a sequence: `u64` count + element encodings. -/
def encList {α : Type} (f : α → List Nat) (l : List α) : List Nat :=
  leBytes 8 l.length ++ (l.map f).flatten

/-- bincode encoding of one `Activity`. -/
def encActivity (a : models.Activity) : List Nat :=
  leBytes 4 a.id ++ encString a.title

/-- bincode encoding of one `CourseScore`. -/
def encCourseScore (c : models.CourseScore) : List Nat :=
  encString c.course ++ leBytes 4 c.score

/-- bincode encoding of a `RequestPayload`: `u32` discriminant followed
by the variant's field encoding. -/
def encodeRequestPayload : RequestPayload → List Nat
  | .AgentInfo _ => leBytes 4 0
  | .ElectricityBill r => leBytes 4 1 ++ encString r.room
  | .ActivityList r => leBytes 4 2 ++ leBytes 2 r.count ++ leBytes 2 r.index
  | .ScoreList r => leBytes 4 3 ++ encString r.account ++ leBytes 4 r.school_year

/-- bincode encoding of a `ResponsePayload`: `u32` discriminant followed
by the variant's field encoding. -/
def encodeResponsePayload : ResponsePayload → List Nat
  | .AgentInfo r => leBytes 4 0 ++ encString r.name
  | .ElectricityBill r => leBytes 4 1 ++ leBytes 4 r.balance ++ leBytes 4 r.power
  | .ActivityList l => leBytes 4 2 ++ encList encActivity l
  | .ScoreList l => leBytes 4 3 ++ encList encCourseScore l

/-- Take `n` bytes from the front of a buffer; fails when the buffer is
shorter (bincode: truncated input). -/
def parseBytes (n : Nat) (l : List Nat) : Option (List Nat × List Nat) :=
  if n ≤ l.length then some (l.take n, l.drop n) else none

/-- Parse a fixed-width little-endian integer. -/
def parseFix (w : Nat) (l : List Nat) : Option (Nat × List Nat) :=
  (parseBytes w l).map fun p => (leVal p.1, p.2)

/-- Parse a string/byte sequence: `u64` length + bytes. -/
def parseString (l : List Nat) : Option (List Nat × List Nat) :=
  match parseFix 8 l with
  | none => none
  | some (n, r) => parseBytes n r

/-- Parse `n` consecutive elements. -/
def parseCount {α : Type} (f : List Nat → Option (α × List Nat)) :
    Nat → List Nat → Option (List α × List Nat)
  | 0, l => some ([], l)
  | n + 1, l =>
    match f l with
    | none => none
    | some (a, r) =>
      match parseCount f n r with
      | none => none
      | some (as, r2) => some (a :: as, r2)

/-- Parse a sequence: `u64` count + elements. -/
def parseSeq {α : Type} (f : List Nat → Option (α × List Nat))
    (l : List Nat) : Option (List α × List Nat) :=
  match parseFix 8 l with
  | none => none
  | some (n, r) => parseCount f n r

/-- Parse one `Activity`. -/
def parseActivity (l : List Nat) : Option (models.Activity × List Nat) :=
  match parseFix 4 l with
  | none => none
  | some (i, r) =>
    match parseString r with
    | none => none
    | some (t, r2) => some (⟨i, t⟩, r2)

/-- Parse one `CourseScore`. -/
def parseCourseScore (l : List Nat) : Option (models.CourseScore × List Nat) :=
  match parseString l with
  | none => none
  | some (c, r) =>
    match parseFix 4 r with
    | none => none
    | some (s, r2) => some (⟨c, s⟩, r2)

/-- Parse a `RequestPayload`: dispatch on the `u32` discriminant; an
unrecognized discriminant or truncated field encoding fails. -/
def parseRequestPayload (l : List Nat) : Option (RequestPayload × List Nat) :=
  match parseFix 4 l with
  | none => none
  | some (d, r) =>
    if d = 0 then some (.AgentInfo ⟨⟩, r)
    else if d = 1 then
      match parseString r with
      | none => none
      | some (b, r2) => some (.ElectricityBill ⟨b⟩, r2)
    else if d = 2 then
      match parseFix 2 r with
      | none => none
      | some (c, r2) =>
        match parseFix 2 r2 with
        | none => none
        | some (i, r3) => some (.ActivityList ⟨c, i⟩, r3)
    else if d = 3 then
      match parseString r with
      | none => none
      | some (a, r2) =>
        match parseFix 4 r2 with
        | none => none
        | some (y, r3) => some (.ScoreList ⟨a, y⟩, r3)
    else none

/-- Parse a `ResponsePayload`: dispatch on the `u32` discriminant; an
unrecognized discriminant or truncated field encoding fails. -/
def parseResponsePayload (l : List Nat) : Option (ResponsePayload × List Nat) :=
  match parseFix 4 l with
  | none => none
  | some (d, r) =>
    if d = 0 then
      match parseString r with
      | none => none
      | some (b, r2) => some (.AgentInfo ⟨b⟩, r2)
    else if d = 1 then
      match parseFix 4 r with
      | none => none
      | some (b, r2) =>
        match parseFix 4 r2 with
        | none => none
        | some (p, r3) => some (.ElectricityBill ⟨b, p⟩, r3)
    else if d = 2 then
      match parseSeq parseActivity r with
      | none => none
      | some (as, r2) => some (.ActivityList as, r2)
    else if d = 3 then
      match parseSeq parseCourseScore r with
      | none => none
      | some (cs, r2) => some (.ScoreList cs, r2)
    else none

/-- Models `bincode::deserialize::<RequestPayload>`: trailing bytes ignored. -/
def decodeRequestPayload (l : List Nat) : Option RequestPayload :=
  (parseRequestPayload l).map Prod.fst

/-- Models `bincode::deserialize::<ResponsePayload>`: trailing bytes ignored. -/
def decodeResponsePayload (l : List Nat) : Option ResponsePayload :=
  (parseResponsePayload l).map Prod.fst

/-! ## The async byte stream and `Response::from_stream`

The reader consumes a `BufReader<OwnedReadHalf>`.  The stream is modelled
as the list of pending partial deliveries ("chunks"): one underlying poll
returns up to the requested number of bytes from the first pending chunk,
and returns no bytes exactly when the peer has closed the connection.
tokio's `read_exact` (and the `read_u64`/`read_u32`/`read_u16` helpers)
loop over such polls until the requested count is filled, failing with an
I/O error when a poll delivers zero bytes first.  A well-formed stream has
no empty chunk (a TCP read returns zero bytes only at end of stream). -/

/-- Pending deliveries of the stream; end of stream once exhausted. -/
abbrev ByteStream : Type := List (List Nat)

/-- Well-formed stream: a delivery is never empty. -/
def StreamWF (s : ByteStream) : Prop := ∀ c ∈ s, c ≠ []

instance (s : ByteStream) : Decidable (StreamWF s) :=
  inferInstanceAs (Decidable (∀ c ∈ s, c ≠ []))

/-- All bytes the stream will ever deliver, in order. -/
def ByteStream.bytes (s : ByteStream) : List Nat := List.flatten s

/-- One poll of the underlying stream: up to `n` bytes from the first
pending chunk; the empty delivery means end of stream. -/
def readPoll (n : Nat) : ByteStream → (List Nat × ByteStream)
  | [] => ([], [])
  | c :: rest =>
    if c.length ≤ n then (c, rest)
    else (c.take n, c.drop n :: rest)

/-- tokio `read_exact`: poll repeatedly until `n` bytes are filled; a
zero-byte poll before that is a fatal I/O error (`UnexpectedEof`).  Each
successful poll delivers at least one byte, so `fuel = n` polls always
suffice; the fuel-exhaustion branch is unreachable (`read_exact_fuel`). -/
def read_exact : Nat → Nat → ByteStream → Except ProtocolError (List Nat × ByteStream)
  | _, 0, s => .ok ([], s)
  | 0, _ + 1, _ => .error .Io
  | fuel + 1, n + 1, s =>
    match readPoll (n + 1) s with
    | (bs, s') =>
      if bs.length = 0 then .error .Io
      else
        match read_exact fuel (n + 1 - bs.length) s' with
        | .error e => .error e
        | .ok (bs2, s'') => .ok (bs ++ bs2, s'')

/-- The body loop of `Response::from_stream`: while fewer than `size`
bytes have been read, request `min (size - p) 2048` more via `read_exact`.
`remaining` is `size - p`; each iteration reads at least one byte, so
`fuel = remaining` iterations always suffice. -/
def read_body : Nat → Nat → ByteStream → Except ProtocolError (List Nat × ByteStream)
  | _, 0, s => .ok ([], s)
  | 0, _ + 1, _ => .error .Io
  | fuel + 1, r + 1, s =>
    match read_exact (min (r + 1) 2048) (min (r + 1) 2048) s with
    | .error e => .error e
    | .ok (bs, s') =>
      match read_body fuel (r + 1 - min (r + 1) 2048) s' with
      | .error e => .error e
      | .ok (bs2, s'') => .ok (bs ++ bs2, s'')

/-- Agent response (`Response` in `protocol.rs`). -/
structure Response where
  ack : Nat
  size : Nat
  code : Nat
  payload : List Nat
deriving DecidableEq

/-- Models `Response::read_header`: three consecutive big-endian reads — 8 bytes
`ack`, 4 bytes `size`, 2 bytes `code` — into a default (empty-payload)
response. -/
def Response.read_header (s : ByteStream) :
    Except ProtocolError (Response × ByteStream) :=
  match read_exact 8 8 s with
  | .error e => .error e
  | .ok (a, s1) =>
    match read_exact 4 4 s1 with
    | .error e => .error e
    | .ok (z, s2) =>
      match read_exact 2 2 s2 with
      | .error e => .error e
      | .ok (c, s3) =>
        .ok ({ ack := beVal a, size := beVal z, code := beVal c,
               payload := [] }, s3)

/-- Models `Response::from_stream`: parse the 14-byte header; if `size == 0`
return immediately, otherwise fill a `size`-byte payload with the bounded
body loop. -/
def Response.from_stream (s : ByteStream) :
    Except ProtocolError (Response × ByteStream) :=
  match Response.read_header s with
  | .error e => .error e
  | .ok (r, s') =>
    if r.size = 0 then .ok (r, s')
    else
      match read_body r.size r.size s' with
      | .error e => .error e
      | .ok (body, s'') => .ok ({ r with payload := body }, s'')

/-- Models `Response::is_ok`: success classification from the status code. -/
def Response.is_ok (r : Response) : Bool :=
  r.code == 0

/-- Models `Response::payload(self) -> Result<ResponsePayload>`: run the bincode
decode step on the raw payload buffer; a failed decode surfaces as a
`Decode` error value.  (Named `decodePayload` here because the Lean
structure already uses `payload` for the field.) -/
def Response.decodePayload (r : Response) : Except ProtocolError ResponsePayload :=
  match decodeResponsePayload r.payload with
  | some q => .ok q
  | none => .error .Decode

/-! ## `Request::new` and the sequence counter -/

/-- Models `LAST_SEQ`: the process-wide atomic counter, initialized to
`AtomicU64::new(1)`. -/
def LAST_SEQ_init : Nat := 1

/-- Models `LAST_SEQ.fetch_add(1, Relaxed)`: return the stored value; store the
wrapping successor.  The stored value is a `u64`. -/
def fetch_add (s : Nat) : Nat × Nat :=
  (s % 2 ^ 64, (s + 1) % 2 ^ 64)

/-- Host request (`Request` in `protocol.rs`). -/
structure Request where
  seq : Nat
  size : Nat
  payload : List Nat
deriving DecidableEq

/-- Models `bincode::serialize(&payload)`.  bincode's default configuration has
no size limit and every supported variant has a fixed, total layout, so
serialization of a `RequestPayload` always succeeds with its encoding. -/
def serialize (p : RequestPayload) : Except ProtocolError (List Nat) :=
  .ok (encodeRequestPayload p)

/-- Models `Request::new`: one `fetch_add` on `LAST_SEQ`, encode the payload
(the source calls `.unwrap()` on the encode result — `none` models that
panic), and set `size` to the encoded length truncated `as u32`.  Returns
the built request together with the new counter state. -/
def Request.new (s : Nat) (p : RequestPayload) : Option (Request × Nat) :=
  match serialize p with
  | .error _ => none
  | .ok payload =>
    some ({ seq := (fetch_add s).1, size := payload.length % 2 ^ 32,
            payload := payload }, (fetch_add s).2)

/-- The sequence numbers carried by successive `Request::new` calls
starting from counter state `s`. -/
def buildSeqs : Nat → List RequestPayload → List Nat
  | _, [] => []
  | s, p :: ps =>
    match Request.new s p with
    | none => []
    | some (r, s') => r.seq :: buildSeqs s' ps

/-- The counter state after successive `Request::new` calls. -/
def buildFinal : Nat → List RequestPayload → Nat
  | s, [] => s
  | s, p :: ps =>
    match Request.new s p with
    | none => s
    | some (_, s') => buildFinal s' ps

/-- A byte-list string as bincode produces it: bounded length, real
bytes. -/
def wfString (b : List Nat) : Prop :=
  b.length < 2 ^ 64 ∧ ∀ x ∈ b, x < 256

instance : DecidablePred wfString := fun b =>
  inferInstanceAs (Decidable (b.length < 2 ^ 64 ∧ ∀ x ∈ b, x < 256))

/-- Field bounds under which an `Activity` is bincode-representable. -/
def wfActivity (a : models.Activity) : Prop :=
  a.id < 2 ^ 32 ∧ wfString a.title

instance : DecidablePred wfActivity := fun a =>
  inferInstanceAs (Decidable (a.id < 2 ^ 32 ∧ wfString a.title))

/-- Field bounds under which a `CourseScore` is bincode-representable. -/
def wfCourseScore (c : models.CourseScore) : Prop :=
  wfString c.course ∧ c.score < 2 ^ 32

instance : DecidablePred wfCourseScore := fun c =>
  inferInstanceAs (Decidable (wfString c.course ∧ c.score < 2 ^ 32))

/-- Field bounds under which a `RequestPayload` is
bincode-representable. -/
def wfRequestPayload : RequestPayload → Prop
  | .AgentInfo _ => True
  | .ElectricityBill r => wfString r.room
  | .ActivityList r => r.count < 2 ^ 16 ∧ r.index < 2 ^ 16
  | .ScoreList r => wfString r.account ∧ r.school_year < 2 ^ 32

instance : DecidablePred wfRequestPayload := fun p =>
  match p with
  | .AgentInfo _ => inferInstanceAs (Decidable True)
  | .ElectricityBill r => inferInstanceAs (Decidable (wfString r.room))
  | .ActivityList r =>
    inferInstanceAs (Decidable (r.count < 2 ^ 16 ∧ r.index < 2 ^ 16))
  | .ScoreList r =>
    inferInstanceAs (Decidable (wfString r.account ∧ r.school_year < 2 ^ 32))

/-- Field bounds under which a `ResponsePayload` is
bincode-representable. -/
def wfResponsePayload : ResponsePayload → Prop
  | .AgentInfo r => wfString r.name
  | .ElectricityBill r => r.balance < 2 ^ 32 ∧ r.power < 2 ^ 32
  | .ActivityList l => l.length < 2 ^ 64 ∧ ∀ a ∈ l, wfActivity a
  | .ScoreList l => l.length < 2 ^ 64 ∧ ∀ c ∈ l, wfCourseScore c

instance : DecidablePred wfResponsePayload := fun q =>
  match q with
  | .AgentInfo r => inferInstanceAs (Decidable (wfString r.name))
  | .ElectricityBill r =>
    inferInstanceAs (Decidable (r.balance < 2 ^ 32 ∧ r.power < 2 ^ 32))
  | .ActivityList l =>
    inferInstanceAs (Decidable (l.length < 2 ^ 64 ∧ ∀ a ∈ l, wfActivity a))
  | .ScoreList l =>
    inferInstanceAs (Decidable (l.length < 2 ^ 64 ∧ ∀ c ∈ l, wfCourseScore c))


/-! ## Properties of the byte encodings -/

theorem leBytes_length (w n : Nat) : (leBytes w n).length = w := by
  induction w generalizing n with
  | zero => rfl
  | succ w ih => simp [leBytes, ih]

theorem beBytes_length (w n : Nat) : (beBytes w n).length = w := by
  simp [beBytes, leBytes_length]

theorem leVal_leBytes {w n : Nat} (h : n < 256 ^ w) :
    leVal (leBytes w n) = n := by
  induction w generalizing n with
  | zero =>
    simp [Nat.pow_zero] at h
    simp [leBytes, leVal, h]
  | succ w ih =>
    have hdiv : n / 256 < 256 ^ w := by
      rw [Nat.div_lt_iff_lt_mul (by norm_num)]
      calc n < 256 ^ (w + 1) := h
        _ = 256 ^ w * 256 := by ring
    simp only [leBytes, leVal, ih hdiv]
    omega

theorem leBytes_leVal {w : Nat} {l : List Nat} (hlen : l.length = w)
    (hb : ∀ x ∈ l, x < 256) : leBytes w (leVal l) = l := by
  induction w generalizing l with
  | zero =>
    rw [List.length_eq_zero] at hlen
    simp [hlen, leBytes]
  | succ w ih =>
    cases l with
    | nil => simp at hlen
    | cons b t =>
      have hb0 : b < 256 := hb b (by simp)
      have hmod : (b + 256 * leVal t) % 256 = b := by omega
      have hdiv : (b + 256 * leVal t) / 256 = leVal t := by omega
      simp only [leBytes, leVal, hmod, hdiv]
      have := ih (l := t) (by simpa using hlen) (fun x hx => hb x (by simp [hx]))
      rw [this]

theorem leVal_lt {w : Nat} {l : List Nat} (hlen : l.length = w)
    (hb : ∀ x ∈ l, x < 256) : leVal l < 256 ^ w := by
  induction w generalizing l with
  | zero =>
    rw [List.length_eq_zero] at hlen
    simp [hlen, leVal]
  | succ w ih =>
    cases l with
    | nil => simp at hlen
    | cons b t =>
      have hb0 : b < 256 := hb b (by simp)
      have ht : leVal t < 256 ^ w :=
        ih (by simpa using hlen) (fun x hx => hb x (by simp [hx]))
      simp only [leVal, pow_succ]
      omega

theorem leBytes_lt (w n : Nat) : ∀ x ∈ leBytes w n, x < 256 := by
  induction w generalizing n with
  | zero => simp [leBytes]
  | succ w ih =>
    intro x hx
    simp only [leBytes, List.mem_cons] at hx
    rcases hx with h | h
    · omega
    · exact ih _ x h

theorem beVal_append_one (l : List Nat) (b : Nat) :
    beVal (l ++ [b]) = 256 * beVal l + b := by
  simp [beVal, List.foldl_append]

theorem beVal_reverse (l : List Nat) : beVal l.reverse = leVal l := by
  induction l with
  | nil => rfl
  | cons b t ih =>
    simp only [List.reverse_cons, beVal_append_one, ih, leVal]
    ring

theorem beVal_beBytes {w n : Nat} (h : n < 256 ^ w) :
    beVal (beBytes w n) = n := by
  rw [beBytes, beVal_reverse, leVal_leBytes h]

theorem beBytes_lt (w n : Nat) : ∀ x ∈ beBytes w n, x < 256 := by
  intro x hx
  rw [beBytes, List.mem_reverse] at hx
  exact leBytes_lt w n x hx

/-! ## Flat characterization of the streaming reads -/

theorem bytes_nil : ByteStream.bytes [] = [] := rfl

theorem bytes_cons (c : List Nat) (s : ByteStream) :
    ByteStream.bytes (c :: s) = c ++ ByteStream.bytes s := rfl

/-- On a well-formed stream with at least `n` bytes pending, `read_exact`
(run with enough fuel) succeeds and returns exactly the first `n` bytes,
leaving the rest pending. -/
theorem read_exact_ok :
    ∀ (fuel n : Nat) (s : ByteStream), n ≤ fuel → StreamWF s →
      n ≤ s.bytes.length →
      ∃ s', read_exact fuel n s = .ok (s.bytes.take n, s') ∧
        s'.bytes = s.bytes.drop n ∧ StreamWF s' := by
  intro fuel
  induction fuel with
  | zero =>
    intro n s hn hwf _
    have hn0 : n = 0 := by omega
    subst hn0
    exact ⟨s, rfl, by simp, hwf⟩
  | succ fuel ih =>
    intro n s hn hwf hlen
    match n with
    | 0 => exact ⟨s, rfl, by simp, hwf⟩
    | n + 1 =>
      match s with
      | [] => simp [bytes_nil] at hlen
      | c :: rest =>
        have hc : c ≠ [] := hwf c (by simp)
        have hcpos : 0 < c.length := List.length_pos.mpr hc
        have hwfr : StreamWF rest := fun d hd => hwf d (by simp [hd])
        rw [bytes_cons] at hlen ⊢
        simp only [List.length_append] at hlen
        by_cases hcl : c.length ≤ n + 1
        · -- the poll delivers the whole first chunk
          obtain ⟨s', heq, hb, hwf'⟩ :=
            ih (n + 1 - c.length) rest (by omega) hwfr (by omega)
          have hne : ¬(c.length = 0) := by omega
          refine ⟨s', ?_, ?_, hwf'⟩
          · simp only [read_exact, readPoll, if_pos hcl, if_neg hne, heq]
            rw [List.take_append_eq_append_take,
              List.take_of_length_le hcl]
          · rw [hb, List.drop_append_eq_append_drop,
              List.drop_of_length_le hcl, List.nil_append]
        · -- the poll delivers an `n+1`-byte prefix of the first chunk
          push_neg at hcl
          have htl : (c.take (n + 1)).length = n + 1 :=
            List.length_take_of_le (by omega)
          have hne : ¬((c.take (n + 1)).length = 0) := by omega
          refine ⟨c.drop (n + 1) :: rest, ?_, ?_, ?_⟩
          · simp only [read_exact, readPoll, if_neg (Nat.not_le.mpr hcl),
              if_neg hne, htl, Nat.sub_self]
            rw [if_neg (Nat.succ_ne_zero n), List.append_nil,
              List.take_append_eq_append_take,
              Nat.sub_eq_zero_of_le (le_of_lt hcl), List.take_zero,
              List.append_nil]
          · rw [bytes_cons, List.drop_append_eq_append_drop,
              Nat.sub_eq_zero_of_le (le_of_lt hcl), List.drop_zero]
          · intro d hd
            rcases List.mem_cons.mp hd with h | h
            · subst h
              refine List.length_pos.mp ?_
              rw [List.length_drop]
              omega
            · exact hwf d (by simp [h])

/-- A single poll never delivers more than requested. -/
theorem readPoll_le (n : Nat) (s : ByteStream) :
    ((readPoll n s).1).length ≤ n := by
  match s with
  | [] => simp [readPoll]
  | c :: rest =>
    by_cases h : c.length ≤ n
    · simpa [readPoll, if_pos h] using h
    · simp [readPoll, if_neg h]

/-- On a well-formed stream holding fewer than `n` bytes, `read_exact`
fails with an I/O error: the connection closes before the count is
filled. -/
theorem read_exact_eof :
    ∀ (fuel n : Nat) (s : ByteStream), n ≤ fuel → StreamWF s →
      s.bytes.length < n → read_exact fuel n s = .error .Io := by
  intro fuel
  induction fuel with
  | zero =>
    intro n s hn _ hlen
    omega
  | succ fuel ih =>
    intro n s hn hwf hlen
    match n with
    | 0 => omega
    | n + 1 =>
      match s with
      | [] => simp [read_exact, readPoll]
      | c :: rest =>
        have hc : c ≠ [] := hwf c (by simp)
        have hcpos : 0 < c.length := List.length_pos.mpr hc
        have hwfr : StreamWF rest := fun d hd => hwf d (by simp [hd])
        rw [bytes_cons] at hlen
        simp only [List.length_append] at hlen
        have hcl : c.length ≤ n + 1 := by omega
        have hne : ¬(c.length = 0) := by omega
        have heq := ih (n + 1 - c.length) rest (by omega) hwfr (by omega)
        simp [read_exact, readPoll, if_pos hcl, if_neg hne, heq]

/-- A successful `read_exact` returns exactly the requested number of
bytes. -/
theorem read_exact_length :
    ∀ (fuel n : Nat) (s : ByteStream) (bs : List Nat) (s' : ByteStream),
      read_exact fuel n s = .ok (bs, s') → bs.length = n := by
  intro fuel
  induction fuel with
  | zero =>
    intro n s bs s' h
    match n with
    | 0 => simp only [read_exact] at h; cases h; rfl
    | n + 1 => simp [read_exact] at h
  | succ fuel ih =>
    intro n s bs s' h
    match n with
    | 0 => simp only [read_exact] at h; cases h; rfl
    | n + 1 =>
      simp only [read_exact] at h
      rcases hpoll : readPoll (n + 1) s with ⟨d, s2⟩
      rw [hpoll] at h
      have hd_le : d.length ≤ n + 1 := by
        have := readPoll_le (n + 1) s
        rw [hpoll] at this
        exact this
      by_cases hd : d = []
      · simp [hd] at h
      · have hdn : ¬(d.length = 0) := by
          simpa using hd
        rw [if_neg (by simpa using hd)] at h
        rcases hrec : read_exact fuel (n + 1 - d.length) s2 with e | p
        · simp [hrec] at h
        · rcases p with ⟨bs2, t⟩
          simp only [hrec, Except.ok.injEq, Prod.mk.injEq] at h
          rcases h with ⟨hb, -⟩
          have hlen2 := ih (n + 1 - d.length) s2 bs2 t hrec
          rw [← hb, List.length_append, hlen2]
          omega

/-- On a well-formed stream with at least `remaining` bytes pending, the
bounded body loop succeeds and returns exactly the first `remaining`
bytes, independently of how the sender chunked them. -/
theorem read_body_ok :
    ∀ (fuel rem : Nat) (s : ByteStream), rem ≤ fuel → StreamWF s →
      rem ≤ s.bytes.length →
      ∃ s', read_body fuel rem s = .ok (s.bytes.take rem, s') ∧
        s'.bytes = s.bytes.drop rem ∧ StreamWF s' := by
  intro fuel
  induction fuel with
  | zero =>
    intro rem s hn hwf _
    have h0 : rem = 0 := by omega
    subst h0
    exact ⟨s, rfl, by simp, hwf⟩
  | succ fuel ih =>
    intro rem s hn hwf hlen
    match rem with
    | 0 => exact ⟨s, rfl, by simp, hwf⟩
    | r + 1 =>
      have hrc1 : 1 ≤ min (r + 1) 2048 := by omega
      have hrcle : min (r + 1) 2048 ≤ r + 1 := Nat.min_le_left _ _
      obtain ⟨s1, he1, hb1, hwf1⟩ :=
        read_exact_ok (min (r + 1) 2048) (min (r + 1) 2048) s
          (le_refl _) hwf (by omega)
      obtain ⟨s2, he2, hb2, hwf2⟩ :=
        ih (r + 1 - min (r + 1) 2048) s1 (by omega) hwf1
          (by rw [hb1, List.length_drop]; omega)
      refine ⟨s2, ?_, ?_, hwf2⟩
      · have htake := (List.take_add s.bytes (min (r + 1) 2048)
          (r + 1 - min (r + 1) 2048)).symm
        rw [Nat.add_sub_cancel' hrcle] at htake
        simp only [read_body, he1, he2, hb1, htake]
      · rw [hb2, hb1, List.drop_drop]
        congr 1
        omega

/-- On a well-formed stream holding fewer than `remaining` bytes, the
body loop fails with an I/O error. -/
theorem read_body_eof :
    ∀ (fuel rem : Nat) (s : ByteStream), rem ≤ fuel → StreamWF s →
      s.bytes.length < rem → read_body fuel rem s = .error .Io := by
  intro fuel
  induction fuel with
  | zero =>
    intro rem s hn _ hlen
    omega
  | succ fuel ih =>
    intro rem s hn hwf hlen
    match rem with
    | 0 => omega
    | r + 1 =>
      by_cases hshort : s.bytes.length < min (r + 1) 2048
      · have he := read_exact_eof (min (r + 1) 2048) (min (r + 1) 2048) s
          (le_refl _) hwf hshort
        simp [read_body, he]
      · push_neg at hshort
        obtain ⟨s1, he1, hb1, hwf1⟩ :=
          read_exact_ok (min (r + 1) 2048) (min (r + 1) 2048) s
            (le_refl _) hwf hshort
        have hrec := ih (r + 1 - min (r + 1) 2048) s1 (by omega) hwf1
          (by rw [hb1, List.length_drop]; omega)
        simp [read_body, he1, hrec]

/-- A successful body loop returns exactly `remaining` bytes. -/
theorem read_body_length :
    ∀ (fuel rem : Nat) (s : ByteStream) (bs : List Nat) (s' : ByteStream),
      read_body fuel rem s = .ok (bs, s') → bs.length = rem := by
  intro fuel
  induction fuel with
  | zero =>
    intro rem s bs s' h
    match rem with
    | 0 => simp only [read_body] at h; cases h; rfl
    | r + 1 => simp [read_body] at h
  | succ fuel ih =>
    intro rem s bs s' h
    match rem with
    | 0 => simp only [read_body] at h; cases h; rfl
    | r + 1 =>
      simp only [read_body] at h
      rcases hre : read_exact (min (r + 1) 2048) (min (r + 1) 2048) s
        with e | p1
      · simp [hre] at h
      · rcases p1 with ⟨d, s1⟩
        have hd : d.length = min (r + 1) 2048 :=
          read_exact_length _ _ s d s1 hre
        rcases hrb : read_body fuel (r + 1 - min (r + 1) 2048) s1
          with e | p2
        · simp [hre, hrb] at h
        · rcases p2 with ⟨bs2, s2⟩
          simp only [hre, hrb, Except.ok.injEq, Prod.mk.injEq] at h
          rcases h with ⟨hb, -⟩
          have hlen2 := ih (r + 1 - min (r + 1) 2048) s1 bs2 s2 hrb
          rw [← hb, List.length_append, hd, hlen2]
          omega

/-- Prefix form of `read_exact_ok`: reading exactly the length of a known
prefix consumes that prefix. -/
theorem read_exact_front {s : ByteStream} {a rest : List Nat}
    (hwf : StreamWF s) (hb : s.bytes = a ++ rest) :
    ∃ s', read_exact a.length a.length s = .ok (a, s') ∧
      s'.bytes = rest ∧ StreamWF s' := by
  obtain ⟨s', he, hb', hwf'⟩ :=
    read_exact_ok a.length a.length s (le_refl _) hwf
      (by rw [hb, List.length_append]; omega)
  refine ⟨s', ?_, ?_, hwf'⟩
  · rw [he, hb, List.take_left]
  · rw [hb', hb, List.drop_left]

/-- Parsing the 14-byte header: the three big-endian reads recover `ack`,
`size` and `code` and consume exactly 14 bytes. -/
theorem read_header_ok {s : ByteStream} {ack size code : Nat}
    {rest : List Nat} (hwf : StreamWF s)
    (hack : ack < 2 ^ 64) (hsize : size < 2 ^ 32) (hcode : code < 2 ^ 16)
    (hb : s.bytes = beBytes 8 ack ++ (beBytes 4 size ++ (beBytes 2 code ++ rest))) :
    ∃ s', Response.read_header s =
        .ok ({ ack := ack, size := size, code := code, payload := [] }, s') ∧
      s'.bytes = rest ∧ StreamWF s' := by
  have hack' : ack < 256 ^ 8 := by norm_num at hack ⊢; omega
  have hsize' : size < 256 ^ 4 := by norm_num at hsize ⊢; omega
  have hcode' : code < 256 ^ 2 := by norm_num at hcode ⊢; omega
  obtain ⟨s1, he1, hb1, hwf1⟩ := read_exact_front hwf hb
  obtain ⟨s2, he2, hb2, hwf2⟩ := read_exact_front hwf1 hb1
  obtain ⟨s3, he3, hb3, hwf3⟩ := read_exact_front hwf2 hb2
  rw [beBytes_length] at he1 he2 he3
  refine ⟨s3, ?_, hb3, hwf3⟩
  simp only [Response.read_header, he1, he2, he3,
    beVal_beBytes hack', beVal_beBytes hsize', beVal_beBytes hcode']

/-- A successful `read_header` leaves the payload empty (it is filled, if
at all, only by the body loop). -/
theorem read_header_shape :
    ∀ (s : ByteStream) (r : Response) (s' : ByteStream),
      Response.read_header s = .ok (r, s') → r.payload = [] := by
  intro s r s' h
  simp only [Response.read_header] at h
  rcases h1 : read_exact 8 8 s with e | p1
  · simp [h1] at h
  · rcases p1 with ⟨a, s1⟩
    simp only [h1] at h
    rcases h2 : read_exact 4 4 s1 with e | p2
    · simp [h2] at h
    · rcases p2 with ⟨z, s2⟩
      simp only [h2] at h
      rcases h3 : read_exact 2 2 s2 with e | p3
      · simp [h3] at h
      · rcases p3 with ⟨c, s3⟩
        simp only [h3, Except.ok.injEq, Prod.mk.injEq] at h
        rcases h with ⟨hr, -⟩
        rw [← hr]

/-- C1: when the header announces `size = N > 0` and the stream delivers
at least `N` body bytes — in whatever chunking — `Response::from_stream`
succeeds, and the returned payload has length exactly `N` and equals the
first `N` body bytes. -/
theorem from_stream_reads_announced_size {chunks : ByteStream}
    {ack N code : Nat} {body : List Nat}
    (hwf : StreamWF chunks) (hack : ack < 2 ^ 64) (hN : N < 2 ^ 32)
    (hcode : code < 2 ^ 16) (hpos : 0 < N) (hbody : N ≤ body.length)
    (hb : chunks.bytes =
      beBytes 8 ack ++ (beBytes 4 N ++ (beBytes 2 code ++ body))) :
    ∃ s', Response.from_stream chunks =
        .ok ({ ack := ack, size := N, code := code,
               payload := body.take N }, s') ∧
      (body.take N).length = N := by
  obtain ⟨s1, hh, hb1, hwf1⟩ := read_header_ok hwf hack hN hcode hb
  obtain ⟨s2, hrb, hb2, hwf2⟩ :=
    read_body_ok N N s1 (le_refl _) hwf1 (by rw [hb1]; omega)
  rw [hb1] at hrb
  refine ⟨s2, ?_, List.length_take_of_le hbody⟩
  simp only [Response.from_stream, hh, if_neg (by omega : ¬(N = 0))]
  simp only [hrb]

/-- C2 (first part): if the stream reaches end of stream after fewer
than the announced `N > 0` body bytes, `from_stream` fails with an I/O
error; (second part) a successful `from_stream` always returns a payload
of exactly the announced size. -/
theorem from_stream_short_body_io :
    (∀ (chunks : ByteStream) (ack N code : Nat) (body : List Nat),
      StreamWF chunks → ack < 2 ^ 64 → N < 2 ^ 32 → code < 2 ^ 16 →
      0 < N → body.length < N →
      chunks.bytes =
        beBytes 8 ack ++ (beBytes 4 N ++ (beBytes 2 code ++ body)) →
      Response.from_stream chunks = .error .Io) ∧
    (∀ (chunks : ByteStream) (r : Response) (s' : ByteStream),
      Response.from_stream chunks = .ok (r, s') →
      r.payload.length = r.size) := by
  constructor
  · intro chunks ack N code body hwf hack hN hcode hpos hshort hb
    obtain ⟨s1, hh, hb1, hwf1⟩ := read_header_ok hwf hack hN hcode hb
    have heof : read_body N N s1 = .error .Io :=
      read_body_eof N N s1 (le_refl _) hwf1 (by rw [hb1]; omega)
    simp only [Response.from_stream, hh, if_neg (by omega : ¬(N = 0))]
    simp only [heof]
  · intro chunks r s' h
    simp only [Response.from_stream] at h
    rcases hh : Response.read_header chunks with e | p1
    · simp [hh] at h
    · rcases p1 with ⟨r0, s1⟩
      have hnil : r0.payload = [] := read_header_shape chunks r0 s1 hh
      simp only [hh] at h
      by_cases hz : r0.size = 0
      · rw [if_pos hz] at h
        simp only [Except.ok.injEq, Prod.mk.injEq] at h
        rcases h with ⟨hr, -⟩
        rw [← hr, hnil, hz]
        rfl
      · rw [if_neg hz] at h
        rcases hrb : read_body r0.size r0.size s1 with e | p2
        · simp [hrb] at h
        · rcases p2 with ⟨bs, s2⟩
          simp only [hrb, Except.ok.injEq, Prod.mk.injEq] at h
          rcases h with ⟨hr, -⟩
          have := read_body_length r0.size r0.size s1 bs s2 hrb
          rw [← hr]
          simpa using this

/-- C7: a header announcing `size = 0` makes `from_stream` return
immediately with an empty payload, consuming exactly the 14 header bytes
and attempting no body read. -/
theorem from_stream_size_zero {chunks : ByteStream} {ack code : Nat}
    {rest : List Nat} (hwf : StreamWF chunks)
    (hack : ack < 2 ^ 64) (hcode : code < 2 ^ 16)
    (hb : chunks.bytes =
      beBytes 8 ack ++ (beBytes 4 0 ++ (beBytes 2 code ++ rest))) :
    ∃ s', Response.from_stream chunks =
        .ok ({ ack := ack, size := 0, code := code, payload := [] }, s') ∧
      s'.bytes = rest := by
  obtain ⟨s1, hh, hb1, hwf1⟩ :=
    read_header_ok hwf hack (by norm_num) hcode hb
  refine ⟨s1, ?_, hb1⟩
  simp [Response.from_stream, hh]

/-- Witness for C1: a 3-byte body announced and delivered across four
uneven chunks (with chunk boundaries inside the header and the body). -/
theorem from_stream_reads_announced_size_witness :
    ∃ s', Response.from_stream
        [[0, 0, 0, 0, 0], [0, 0, 1, 0, 0, 0], [3, 0, 0, 7, 8], [9, 10]] =
      .ok ({ ack := 1, size := 3, code := 0,
             payload := List.take 3 [7, 8, 9, 10] }, s') ∧
      (List.take 3 [7, 8, 9, 10]).length = 3 :=
  from_stream_reads_announced_size (by decide) (by decide) (by decide)
    (by decide) (by decide) (by decide) (by decide)

/-- Witness for C2: the stream closes after 3 bytes of an announced
10-byte body; the read fails with an I/O error. -/
theorem from_stream_short_body_io_witness :
    Response.from_stream
        [[0, 0, 0, 0, 0, 0, 0, 1, 0, 0, 0, 10, 0, 0, 1, 2, 3]] =
      .error .Io :=
  from_stream_short_body_io.1
    [[0, 0, 0, 0, 0, 0, 0, 1, 0, 0, 0, 10, 0, 0, 1, 2, 3]]
    1 10 0 [1, 2, 3] (by decide) (by decide) (by decide) (by decide)
    (by decide) (by decide) (by decide)

/-- Witness for C7: a 14-byte header announcing `size = 0` yields the
empty-payload response with nothing left unread beyond the header. -/
theorem from_stream_size_zero_witness :
    ∃ s', Response.from_stream
        [[0, 0, 0, 0, 0, 0, 0, 1, 0, 0, 0, 0, 0, 0], [5, 6]] =
      .ok ({ ack := 1, size := 0, code := 0, payload := [] }, s') ∧
      s'.bytes = [5, 6] :=
  from_stream_size_zero (by decide) (by decide) (by decide) (by decide)

/-! ## Codec round trip and decode soundness -/

theorem parseBytes_append (b r : List Nat) :
    parseBytes b.length (b ++ r) = some (b, r) := by
  simp [parseBytes, List.take_left, List.drop_left]

theorem parseFix_append {w n : Nat} (h : n < 256 ^ w) (r : List Nat) :
    parseFix w (leBytes w n ++ r) = some (n, r) := by
  have hb := parseBytes_append (leBytes w n) r
  rw [leBytes_length] at hb
  simp [parseFix, hb, leVal_leBytes h]

theorem parseString_append {b : List Nat} (h : b.length < 2 ^ 64)
    (r : List Nat) : parseString (encString b ++ r) = some (b, r) := by
  have h8 : b.length < 256 ^ 8 := by norm_num at h ⊢; omega
  rw [encString, List.append_assoc]
  simp [parseString, parseFix_append h8, parseBytes_append]

theorem parseCount_append {α : Type} (f : List Nat → Option (α × List Nat))
    (enc : α → List Nat) :
    ∀ (l : List α) (r : List Nat),
      (∀ a ∈ l, ∀ r', f (enc a ++ r') = some (a, r')) →
      parseCount f l.length ((l.map enc).flatten ++ r) = some (l, r) := by
  intro l
  induction l with
  | nil =>
    intro r _
    simp [parseCount]
  | cons a t ih =>
    intro r h
    have hf := h a (by simp) ((t.map enc).flatten ++ r)
    have ht := ih r (fun x hx r' => h x (by simp [hx]) r')
    simp only [List.map_cons, List.flatten_cons, List.length_cons,
      List.append_assoc]
    simp only [parseCount, hf, ht]

theorem parseSeq_append {α : Type} (f : List Nat → Option (α × List Nat))
    (enc : α → List Nat) (l : List α) (r : List Nat)
    (hlen : l.length < 2 ^ 64)
    (h : ∀ a ∈ l, ∀ r', f (enc a ++ r') = some (a, r')) :
    parseSeq f (encList enc l ++ r) = some (l, r) := by
  have h8 : l.length < 256 ^ 8 := by norm_num at hlen ⊢; omega
  rw [encList, List.append_assoc]
  simp [parseSeq, parseFix_append h8, parseCount_append f enc l r h]

theorem parseActivity_append {a : models.Activity} (hwf : wfActivity a)
    (r : List Nat) : parseActivity (encActivity a ++ r) = some (a, r) := by
  obtain ⟨hid, hlen, -⟩ := hwf
  have hid4 : a.id < 256 ^ 4 := by norm_num at hid ⊢; omega
  rw [encActivity, List.append_assoc]
  simp [parseActivity, parseFix_append hid4, parseString_append hlen]

theorem parseCourseScore_append {c : models.CourseScore}
    (hwf : wfCourseScore c) (r : List Nat) :
    parseCourseScore (encCourseScore c ++ r) = some (c, r) := by
  obtain ⟨⟨hlen, -⟩, hs⟩ := hwf
  have hs4 : c.score < 256 ^ 4 := by norm_num at hs ⊢; omega
  rw [encCourseScore, List.append_assoc]
  simp [parseCourseScore, parseString_append hlen, parseFix_append hs4]

theorem parseRequestPayload_append (p : RequestPayload)
    (hwf : wfRequestPayload p) (r : List Nat) :
    parseRequestPayload (encodeRequestPayload p ++ r) = some (p, r) := by
  cases p with
  | AgentInfo a =>
    obtain ⟨⟩ := a
    simp [encodeRequestPayload, parseRequestPayload,
      parseFix_append (by norm_num : (0 : Nat) < 256 ^ 4)]
  | ElectricityBill b =>
    obtain ⟨hlen, -⟩ := hwf
    simp only [encodeRequestPayload, List.append_assoc]
    simp [parseRequestPayload,
      parseFix_append (by norm_num : (1 : Nat) < 256 ^ 4),
      parseString_append hlen]
  | ActivityList b =>
    obtain ⟨hc, hi⟩ := hwf
    have hc2 : b.count < 256 ^ 2 := by norm_num at hc ⊢; omega
    have hi2 : b.index < 256 ^ 2 := by norm_num at hi ⊢; omega
    simp only [encodeRequestPayload, List.append_assoc]
    simp [parseRequestPayload,
      parseFix_append (by norm_num : (2 : Nat) < 256 ^ 4),
      parseFix_append hc2, parseFix_append hi2]
  | ScoreList b =>
    obtain ⟨⟨hlen, -⟩, hy⟩ := hwf
    have hy4 : b.school_year < 256 ^ 4 := by norm_num at hy ⊢; omega
    simp only [encodeRequestPayload, List.append_assoc]
    simp [parseRequestPayload,
      parseFix_append (by norm_num : (3 : Nat) < 256 ^ 4),
      parseString_append hlen, parseFix_append hy4]

theorem parseResponsePayload_append (q : ResponsePayload)
    (hwf : wfResponsePayload q) (r : List Nat) :
    parseResponsePayload (encodeResponsePayload q ++ r) = some (q, r) := by
  cases q with
  | AgentInfo b =>
    obtain ⟨hlen, -⟩ := hwf
    simp only [encodeResponsePayload, List.append_assoc]
    simp [parseResponsePayload,
      parseFix_append (by norm_num : (0 : Nat) < 256 ^ 4),
      parseString_append hlen]
  | ElectricityBill b =>
    obtain ⟨hb, hp⟩ := hwf
    have hb4 : b.balance < 256 ^ 4 := by norm_num at hb ⊢; omega
    have hp4 : b.power < 256 ^ 4 := by norm_num at hp ⊢; omega
    simp only [encodeResponsePayload, List.append_assoc]
    simp [parseResponsePayload,
      parseFix_append (by norm_num : (1 : Nat) < 256 ^ 4),
      parseFix_append hb4, parseFix_append hp4]
  | ActivityList l =>
    obtain ⟨hlen, helem⟩ := hwf
    simp only [encodeResponsePayload, List.append_assoc]
    simp [parseResponsePayload,
      parseFix_append (by norm_num : (2 : Nat) < 256 ^ 4),
      parseSeq_append parseActivity encActivity l r hlen
        (fun a ha r' => parseActivity_append (helem a ha) r')]
  | ScoreList l =>
    obtain ⟨hlen, helem⟩ := hwf
    simp only [encodeResponsePayload, List.append_assoc]
    simp [parseResponsePayload,
      parseFix_append (by norm_num : (3 : Nat) < 256 ^ 4),
      parseSeq_append parseCourseScore encCourseScore l r hlen
        (fun c hc r' => parseCourseScore_append (helem c hc) r')]

/-- C3: for every bincode-representable request payload, decoding the
encoding returns the payload itself, and likewise for every response
payload: decode after encode is the identity on both sides of the
codec. -/
theorem codec_round_trip :
    (∀ p : RequestPayload, wfRequestPayload p →
      decodeRequestPayload (encodeRequestPayload p) = some p) ∧
    (∀ q : ResponsePayload, wfResponsePayload q →
      decodeResponsePayload (encodeResponsePayload q) = some q) := by
  constructor
  · intro p hwf
    have h := parseRequestPayload_append p hwf []
    rw [List.append_nil] at h
    simp [decodeRequestPayload, h]
  · intro q hwf
    have h := parseResponsePayload_append q hwf []
    rw [List.append_nil] at h
    simp [decodeResponsePayload, h]

/-- Witness for C3: one concrete round trip on each side of the codec
(a course-score request; a two-element activity-list response). -/
theorem codec_round_trip_witness :
    decodeRequestPayload (encodeRequestPayload
        (.ScoreList ⟨[65, 66, 67], 2020⟩)) =
      some (.ScoreList ⟨[65, 66, 67], 2020⟩) ∧
    decodeResponsePayload (encodeResponsePayload
        (.ActivityList [⟨7, [72, 105]⟩, ⟨8, []⟩])) =
      some (.ActivityList [⟨7, [72, 105]⟩, ⟨8, []⟩]) :=
  ⟨codec_round_trip.1 (.ScoreList ⟨[65, 66, 67], 2020⟩) (by decide),
   codec_round_trip.2 (.ActivityList [⟨7, [72, 105]⟩, ⟨8, []⟩]) (by decide)⟩

theorem parseBytes_sound {n : Nat} {l b r : List Nat}
    (h : parseBytes n l = some (b, r)) : l = b ++ r ∧ b.length = n := by
  simp only [parseBytes] at h
  by_cases hn : n ≤ l.length
  · rw [if_pos hn] at h
    simp only [Option.some.injEq, Prod.mk.injEq] at h
    rcases h with ⟨hb, hr⟩
    rw [← hb, ← hr]
    exact ⟨(List.take_append_drop n l).symm, List.length_take_of_le hn⟩
  · rw [if_neg hn] at h
    cases h

theorem parseFix_sound {w : Nat} {l r : List Nat} {v : Nat}
    (hb : ∀ x ∈ l, x < 256) (h : parseFix w l = some (v, r)) :
    l = leBytes w v ++ r ∧ v < 256 ^ w := by
  simp only [parseFix] at h
  rcases hp : parseBytes w l with _ | p
  · rw [hp] at h; cases h
  · rcases p with ⟨b, rest⟩
    simp only [hp, Option.map_some', Option.some.injEq, Prod.mk.injEq] at h
    rcases h with ⟨hv, hr⟩
    obtain ⟨hl, hlen⟩ := parseBytes_sound hp
    have hbb : ∀ x ∈ b, x < 256 := fun x hx =>
      hb x (by rw [hl]; exact List.mem_append_left _ hx)
    refine ⟨?_, ?_⟩
    · rw [← hv, ← hr, leBytes_leVal hlen hbb, hl]
    · rw [← hv]
      exact leVal_lt hlen hbb

theorem parseString_sound {l b r : List Nat} (hb : ∀ x ∈ l, x < 256)
    (h : parseString l = some (b, r)) :
    l = encString b ++ r ∧ wfString b := by
  simp only [parseString] at h
  rcases hf : parseFix 8 l with _ | p
  · rw [hf] at h; cases h
  · rcases p with ⟨n, rest⟩
    simp only [hf] at h
    obtain ⟨hl, hn⟩ := parseFix_sound hb hf
    obtain ⟨hrest, hblen⟩ := parseBytes_sound h
    refine ⟨?_, ?_, ?_⟩
    · rw [hl, hrest, encString, hblen, List.append_assoc]
    · rw [hblen]
      norm_num at hn ⊢
      omega
    · intro x hx
      apply hb
      rw [hl, hrest]
      exact List.mem_append_right _ (List.mem_append_left _ hx)

theorem parseCount_sound {α : Type} (f : List Nat → Option (α × List Nat))
    (enc : α → List Nat)
    (hf : ∀ l a r, (∀ x ∈ l, x < 256) → f l = some (a, r) →
      l = enc a ++ r) :
    ∀ (n : Nat) (l : List Nat) (as : List α) (r : List Nat),
      (∀ x ∈ l, x < 256) → parseCount f n l = some (as, r) →
      l = (as.map enc).flatten ++ r ∧ as.length = n := by
  intro n
  induction n with
  | zero =>
    intro l as r hb h
    simp only [parseCount, Option.some.injEq, Prod.mk.injEq] at h
    rcases h with ⟨ha, hr⟩
    rw [← ha, ← hr]
    simp
  | succ n ih =>
    intro l as r hb h
    simp only [parseCount] at h
    rcases he : f l with _ | p
    · rw [he] at h; cases h
    · rcases p with ⟨a, rest⟩
      simp only [he] at h
      rcases hc : parseCount f n rest with _ | p2
      · rw [hc] at h; cases h
      · rcases p2 with ⟨as2, r2⟩
        simp only [hc, Option.some.injEq, Prod.mk.injEq] at h
        rcases h with ⟨ha, hr⟩
        have hl := hf l a rest hb he
        have hbrest : ∀ x ∈ rest, x < 256 := fun x hx =>
          hb x (by rw [hl]; exact List.mem_append_right _ hx)
        obtain ⟨hrest, hlen⟩ := ih rest as2 r2 hbrest hc
        refine ⟨?_, ?_⟩
        · rw [← ha, ← hr, hl, hrest]
          simp [List.append_assoc]
        · rw [← ha, List.length_cons, hlen]

theorem parseSeq_sound {α : Type} (f : List Nat → Option (α × List Nat))
    (enc : α → List Nat)
    (hf : ∀ l a r, (∀ x ∈ l, x < 256) → f l = some (a, r) →
      l = enc a ++ r)
    {l r : List Nat} {as : List α} (hb : ∀ x ∈ l, x < 256)
    (h : parseSeq f l = some (as, r)) : l = encList enc as ++ r := by
  simp only [parseSeq] at h
  rcases hfx : parseFix 8 l with _ | p
  · rw [hfx] at h; cases h
  · rcases p with ⟨n, rest⟩
    simp only [hfx] at h
    obtain ⟨hl, -⟩ := parseFix_sound hb hfx
    have hbrest : ∀ x ∈ rest, x < 256 := fun x hx =>
      hb x (by rw [hl]; exact List.mem_append_right _ hx)
    obtain ⟨hrest, hlen⟩ := parseCount_sound f enc hf n rest as r hbrest h
    rw [hl, hrest, encList, hlen, List.append_assoc]

theorem parseActivity_sound :
    ∀ (l : List Nat) (a : models.Activity) (r : List Nat),
      (∀ x ∈ l, x < 256) → parseActivity l = some (a, r) →
      l = encActivity a ++ r := by
  intro l a r hb h
  simp only [parseActivity] at h
  rcases hfx : parseFix 4 l with _ | p
  · rw [hfx] at h; cases h
  · rcases p with ⟨i, rest⟩
    simp only [hfx] at h
    rcases hs : parseString rest with _ | p2
    · rw [hs] at h; cases h
    · rcases p2 with ⟨t, r2⟩
      simp only [hs, Option.some.injEq, Prod.mk.injEq] at h
      rcases h with ⟨ha, hr⟩
      obtain ⟨hl, -⟩ := parseFix_sound hb hfx
      have hbrest : ∀ x ∈ rest, x < 256 := fun x hx =>
        hb x (by rw [hl]; exact List.mem_append_right _ hx)
      obtain ⟨hrest, -⟩ := parseString_sound hbrest hs
      rw [← ha, ← hr, hl, hrest, encActivity, List.append_assoc]

theorem parseCourseScore_sound :
    ∀ (l : List Nat) (c : models.CourseScore) (r : List Nat),
      (∀ x ∈ l, x < 256) → parseCourseScore l = some (c, r) →
      l = encCourseScore c ++ r := by
  intro l c r hb h
  simp only [parseCourseScore] at h
  rcases hs : parseString l with _ | p
  · rw [hs] at h; cases h
  · rcases p with ⟨t, rest⟩
    simp only [hs] at h
    rcases hfx : parseFix 4 rest with _ | p2
    · rw [hfx] at h; cases h
    · rcases p2 with ⟨v, r2⟩
      simp only [hfx, Option.some.injEq, Prod.mk.injEq] at h
      rcases h with ⟨hc, hr⟩
      obtain ⟨hl, -⟩ := parseString_sound hb hs
      have hbrest : ∀ x ∈ rest, x < 256 := fun x hx =>
        hb x (by rw [hl]; exact List.mem_append_right _ hx)
      obtain ⟨hrest, -⟩ := parseFix_sound hbrest hfx
      rw [← hc, ← hr, hl, hrest, encCourseScore, List.append_assoc]

theorem parseResponsePayload_sound {l r : List Nat} {q : ResponsePayload}
    (hb : ∀ x ∈ l, x < 256)
    (h : parseResponsePayload l = some (q, r)) :
    l = encodeResponsePayload q ++ r := by
  simp only [parseResponsePayload] at h
  rcases hfx : parseFix 4 l with _ | p
  · rw [hfx] at h; cases h
  · rcases p with ⟨d, rest⟩
    simp only [hfx] at h
    obtain ⟨hl, -⟩ := parseFix_sound hb hfx
    have hbrest : ∀ x ∈ rest, x < 256 := fun x hx =>
      hb x (by rw [hl]; exact List.mem_append_right _ hx)
    by_cases hd0 : d = 0
    · subst hd0
      rw [if_pos rfl] at h
      rcases hs : parseString rest with _ | p2
      · rw [hs] at h; cases h
      · rcases p2 with ⟨b, r2⟩
        simp only [hs, Option.some.injEq, Prod.mk.injEq] at h
        rcases h with ⟨hq, hr⟩
        obtain ⟨hrest, -⟩ := parseString_sound hbrest hs
        rw [← hq, ← hr, hl, hrest, encodeResponsePayload, List.append_assoc]
    · rw [if_neg hd0] at h
      by_cases hd1 : d = 1
      · subst hd1
        rw [if_pos rfl] at h
        rcases h1 : parseFix 4 rest with _ | p2
        · rw [h1] at h; cases h
        · rcases p2 with ⟨bal, r2⟩
          simp only [h1] at h
          rcases h2 : parseFix 4 r2 with _ | p3
          · rw [h2] at h; cases h
          · rcases p3 with ⟨pow, r3⟩
            simp only [h2, Option.some.injEq, Prod.mk.injEq] at h
            rcases h with ⟨hq, hr⟩
            obtain ⟨hrest, -⟩ := parseFix_sound hbrest h1
            have hbr2 : ∀ x ∈ r2, x < 256 := fun x hx =>
              hbrest x (by rw [hrest]; exact List.mem_append_right _ hx)
            obtain ⟨hr2, -⟩ := parseFix_sound hbr2 h2
            rw [← hq, ← hr, hl, hrest, hr2, encodeResponsePayload,
              List.append_assoc, List.append_assoc]
      · rw [if_neg hd1] at h
        by_cases hd2 : d = 2
        · subst hd2
          rw [if_pos rfl] at h
          rcases hs : parseSeq parseActivity rest with _ | p2
          · rw [hs] at h; cases h
          · rcases p2 with ⟨as, r2⟩
            simp only [hs, Option.some.injEq, Prod.mk.injEq] at h
            rcases h with ⟨hq, hr⟩
            have hrest :=
              parseSeq_sound parseActivity encActivity
                parseActivity_sound hbrest hs
            rw [← hq, ← hr, hl, hrest, encodeResponsePayload,
              List.append_assoc]
        · rw [if_neg hd2] at h
          by_cases hd3 : d = 3
          · subst hd3
            rw [if_pos rfl] at h
            rcases hs : parseSeq parseCourseScore rest with _ | p2
            · rw [hs] at h; cases h
            · rcases p2 with ⟨cs, r2⟩
              simp only [hs, Option.some.injEq, Prod.mk.injEq] at h
              rcases h with ⟨hq, hr⟩
              have hrest :=
                parseSeq_sound parseCourseScore encCourseScore
                  parseCourseScore_sound hbrest hs
              rw [← hq, ← hr, hl, hrest, encodeResponsePayload,
                List.append_assoc]
          · rw [if_neg hd3] at h
            cases h

/-- C8: on any real byte buffer, `Response::payload` either returns the
`Decode` error value (it never panics: the decode step is a total
function into `Except`), or succeeds — and then the buffer genuinely is
the encoding of the returned variant followed by ignored trailing bytes.
Contrapositive: every buffer that is not an encoding of a known variant
(unrecognized discriminant, truncated or otherwise malformed bytes)
yields the `Decode` error. -/
theorem decodePayload_total (r : Response)
    (hb : ∀ x ∈ r.payload, x < 256) :
    Response.decodePayload r = .error .Decode ∨
    ∃ (q : ResponsePayload) (rest : List Nat),
      Response.decodePayload r = .ok q ∧
      r.payload = encodeResponsePayload q ++ rest := by
  rcases hp : parseResponsePayload r.payload with _ | p
  · left
    simp [Response.decodePayload, decodeResponsePayload, hp]
  · right
    rcases p with ⟨q, rest⟩
    exact ⟨q, rest,
      by simp [Response.decodePayload, decodeResponsePayload, hp],
      parseResponsePayload_sound hb hp⟩

/-- Witness for C8: a buffer starting with the unrecognized discriminant
9 decodes to the `Decode` error. -/
theorem decodePayload_total_witness :
    Response.decodePayload
        { ack := 1, size := 5, code := 0, payload := [9, 0, 0, 0, 1] } =
      .error .Decode ∨
    ∃ (q : ResponsePayload) (rest : List Nat),
      Response.decodePayload
          { ack := 1, size := 5, code := 0, payload := [9, 0, 0, 0, 1] } =
        .ok q ∧
      ([9, 0, 0, 0, 1] : List Nat) = encodeResponsePayload q ++ rest :=
  decodePayload_total
    { ack := 1, size := 5, code := 0, payload := [9, 0, 0, 0, 1] }
    (by decide)

/-- C10: a response whose payload buffer is empty — in particular any
response read with announced `size = 0` — always decodes to the `Decode`
error, never to a `ResponsePayload` variant. -/
theorem decodePayload_empty (r : Response) (h : r.payload = []) :
    Response.decodePayload r = .error .Decode := by
  simp [Response.decodePayload, decodeResponsePayload,
    parseResponsePayload, parseFix, parseBytes, h]

/-- Witness for C10: the success acknowledgement of the spec's concrete
scenario (`ack = 1`, `size = 0`, `code = 0`, empty payload). -/
theorem decodePayload_empty_witness :
    Response.decodePayload { ack := 1, size := 0, code := 0, payload := [] } =
      .error .Decode :=
  decodePayload_empty { ack := 1, size := 0, code := 0, payload := [] } rfl

/-- C9: the success classification holds exactly on status code 0; every
nonzero code classifies as failure. -/
theorem is_ok_iff (r : Response) : r.is_ok = true ↔ r.code = 0 := by
  simp [Response.is_ok]

/-- C4: the codec's encode step succeeds on every supported request
variant, so `Request::new` always returns a built request — construction
can fail only through the codec, and the codec never fails, so the
`unwrap` on the encode result never fires and the process never
crashes. -/
theorem request_new_total : ∀ (s : Nat) (p : RequestPayload),
    serialize p = .ok (encodeRequestPayload p) ∧
    ∃ (r : Request) (s' : Nat), Request.new s p = some (r, s') := by
  intro s p
  refine ⟨rfl, ?_⟩
  exact ⟨_, _, rfl⟩

/-- C5: on every payload whose encoding fits the protocol's 32-bit size
field (the spec's payloads-are-bounded-by-design invariant), the built
request's `size` equals the exact encoded byte length — which is the
length of its `payload` buffer — and never exceeds `2^32 - 1`. -/
theorem request_new_size (s : Nat) (p : RequestPayload) (r : Request)
    (s' : Nat) (hbound : (encodeRequestPayload p).length < 2 ^ 32)
    (h : Request.new s p = some (r, s')) :
    r.size = (encodeRequestPayload p).length ∧
    r.size = r.payload.length ∧ r.size ≤ 2 ^ 32 - 1 := by
  simp only [Request.new, serialize, Option.some.injEq, Prod.mk.injEq] at h
  rcases h with ⟨hr, -⟩
  rw [← hr]
  exact ⟨Nat.mod_eq_of_lt hbound, Nat.mod_eq_of_lt hbound,
    Nat.le_sub_one_of_lt (Nat.mod_lt _ (by norm_num))⟩

/-- Witness for C5: a concrete activity-list request; its 8-byte encoding
is reflected exactly in the `size` field. -/
theorem request_new_size_witness :
    ({ seq := 5, size := 8, payload := [2, 0, 0, 0, 1, 0, 2, 0] } :
        Request).size =
      (encodeRequestPayload (.ActivityList ⟨1, 2⟩)).length ∧
    ({ seq := 5, size := 8, payload := [2, 0, 0, 0, 1, 0, 2, 0] } :
        Request).size =
      ({ seq := 5, size := 8, payload := [2, 0, 0, 0, 1, 0, 2, 0] } :
        Request).payload.length ∧
    ({ seq := 5, size := 8, payload := [2, 0, 0, 0, 1, 0, 2, 0] } :
        Request).size ≤ 2 ^ 32 - 1 :=
  request_new_size 5 (.ActivityList ⟨1, 2⟩)
    { seq := 5, size := 8, payload := [2, 0, 0, 0, 1, 0, 2, 0] } 6
    (by decide) (by decide)

/-- C6: the counter starts at 1; each construction reads-and-increments
it exactly once, so N constructions from state `s0` (below the wrap
bound) return exactly the values `s0, s0+1, ..., s0+N-1`, pairwise
distinct, leaving the counter at `s0 + N`; and the first request ever
built carries `seq = 1`. -/
theorem sequence_counter :
    LAST_SEQ_init = 1 ∧
    (∀ (s0 : Nat) (ps : List RequestPayload), s0 + ps.length < 2 ^ 64 →
      buildSeqs s0 ps = (List.range ps.length).map (fun i => s0 + i) ∧
      (buildSeqs s0 ps).Nodup ∧
      buildFinal s0 ps = s0 + ps.length) ∧
    (∀ p : RequestPayload, ∃ (r : Request) (s' : Nat),
      Request.new LAST_SEQ_init p = some (r, s') ∧ r.seq = 1 ∧ s' = 2) := by
  refine ⟨rfl, ?_, ?_⟩
  · intro s0 ps
    induction ps generalizing s0 with
    | nil =>
      intro _
      simp [buildSeqs, buildFinal]
    | cons p t ih =>
      intro hbound
      rw [List.length_cons] at hbound
      have hs0 : s0 < 2 ^ 64 := by omega
      have hs1 : s0 + 1 < 2 ^ 64 := by omega
      have hnew : Request.new s0 p =
          some ({ seq := s0,
                  size := (encodeRequestPayload p).length % 2 ^ 32,
                  payload := encodeRequestPayload p }, s0 + 1) := by
        simp only [Request.new, serialize, fetch_add]
        rw [Nat.mod_eq_of_lt hs0, Nat.mod_eq_of_lt hs1]
      obtain ⟨hseqs, hnodup, hfinal⟩ := ih (s0 + 1) (by omega)
      refine ⟨?_, ?_, ?_⟩
      · simp only [buildSeqs, hnew, hseqs]
        rw [List.length_cons, List.range_succ_eq_map, List.map_cons,
          List.map_map]
        refine List.cons_eq_cons.mpr ⟨by simp, ?_⟩
        apply List.map_congr_left
        intro i _
        simp only [Function.comp_apply]
        omega
      · simp only [buildSeqs, hnew, hseqs]
        refine List.Nodup.cons ?_ ?_
        · intro hmem
          simp only [List.mem_map, List.mem_range] at hmem
          obtain ⟨i, -, hi⟩ := hmem
          omega
        · exact List.Nodup.map
            (fun a b hab => by omega) (List.nodup_range _)
      · simp only [buildFinal, hnew, hfinal, List.length_cons]
        omega
  · intro p
    refine ⟨{ seq := 1, size := (encodeRequestPayload p).length % 2 ^ 32,
              payload := encodeRequestPayload p }, 2, ?_, rfl, rfl⟩
    norm_num [Request.new, serialize, fetch_add, LAST_SEQ_init]

/-- Witness for C6: two constructions starting from the initial counter
state return sequence numbers 1 and 2 and leave the counter at 3. -/
theorem sequence_counter_witness :
    buildSeqs 1 [.AgentInfo ⟨⟩, .ElectricityBill ⟨[]⟩] =
      (List.range
        ([RequestPayload.AgentInfo ⟨⟩,
          RequestPayload.ElectricityBill ⟨[]⟩].length)).map
        (fun i => 1 + i) ∧
    (buildSeqs 1 [.AgentInfo ⟨⟩, .ElectricityBill ⟨[]⟩]).Nodup ∧
    buildFinal 1 [.AgentInfo ⟨⟩, .ElectricityBill ⟨[]⟩] =
      1 + [RequestPayload.AgentInfo ⟨⟩,
           RequestPayload.ElectricityBill ⟨[]⟩].length :=
  sequence_counter.2.1 1 [.AgentInfo ⟨⟩, .ElectricityBill ⟨[]⟩] (by decide)
